import Mathlib

/-!
Verification of the InTechNet.Uploader pipeline (src/uploader.py and
src/utils/dataclasses.py), shallowly embedded in Lean 4.

The embedding models:
  - the dataclasses `Resource` and `Module` (utils/dataclasses.py);
  - fragment discovery `get_resources` over a filesystem modelled as a list
    of files, each carrying its path components relative to the searched
    directory and its UTF-8 text;
  - fragment ordering `get_sorted_resources` (Python's stable `list.sort`
    with `key = name`, modelled by the stable `List.mergeSort` under the
    codepoint-wise lexicographic comparison `lexLe`);
  - metadata loading `get_module` / `get_module_data` over parsed YAML
    documents modelled as association lists, with Python exceptions
    modelled by the `PyError` type (exception class plus message);
  - persistence `record_resource` / `record_resources` over a database
    state modelled as a list of inserted rows plus a fresh-id counter
    (the serial primary key returned by `RETURNING Id`).
-/

namespace Uploader

/-- The `Resource` dataclass: `content`, `name`, and an optional
`next_resource` reference defaulting to `None`. -/
inductive Resource : Type where
  | mk : String → String → Option Resource → Resource

def Resource.content : Resource → String
  | .mk c _ _ => c

def Resource.name : Resource → String
  | .mk _ n _ => n

def Resource.next_resource : Resource → Option Resource
  | .mk _ _ r => r

/-- The `Module` dataclass: `description`, `name`, and an optional
`first_resource` reference defaulting to `None`. -/
structure Module : Type where
  description : String
  name : String
  first_resource : Option Resource := none

/-- A Python exception as raised by uploader.py: its class and message.
`typeError` stands for the `TypeError` raised by CPython when a dataclass
constructor is called with a required argument missing; its message is
abstracted to a fixed string. -/
inductive PyError : Type where
  | fileNotFoundError (msg : String)
  | keyError (msg : String)
  | typeError (msg : String)
deriving DecidableEq, Repr

def noConfMsg : String := "No module yaml configuration file found"

def multiConfMsg : String := "Multiple yaml configuration files found for this module"

def missingModuleMsg : String := "Field \"module\" missing in the module configuration file"

/-- In the source the message is two adjacent string literals, concatenated
by Python without a separating space. -/
def invalidKeysMsg : String :=
  "Unable to read \"name\" and \"description\" properties of the module(are the keys missing ?)"

def moduleInitMsg : String := "Module() missing a required positional argument"

/-! ## Fragment discovery (`get_resources`) -/

/-- A file on disk, seen from the directory passed to `get_resources`:
`relParts` are its path components relative to that directory (length 1
for a file directly inside it, length over 1 for a file in a
subdirectory), and `text` is its UTF-8 decoded content. -/
structure FsFile : Type where
  relParts : List String
  text : String

/-- Model of `Path.name`: the base name of the file, extension included. -/
def fileName (f : FsFile) : String := f.relParts.getLastD ""

/-- Whether a file is matched by the glob pattern used in the source,
`path.glob('**/*.html')`: any depth, base name ending in `.html` (the
suffix test is done on the codepoint list of the name). -/
def matchesHtml (f : FsFile) : Bool := (".html".data).isSuffixOf (fileName f).data

/-- Embedding of `get_resources`: one `Resource` per file matched by
`path.glob('**/*.html')`, with `content` the file's text read as UTF-8 and
`name` the file's base name. -/
def get_resources (files : List FsFile) : List Resource :=
  (files.filter matchesHtml).map (fun f => Resource.mk f.text (fileName f) none)

/-! ## Fragment ordering (`get_sorted_resources`) -/

/-- Codepoint-wise lexicographic comparison of character lists: the order
Python uses for `str` comparison. -/
def lexLe : List Char → List Char → Bool
  | [], _ => true
  | _ :: _, [] => false
  | a :: as, b :: bs =>
    if a.toNat < b.toNat then true
    else if b.toNat < a.toNat then false
    else lexLe as bs

/-- The key comparison of `sorted_resources.sort(key=lambda resource:
resource.name)`. -/
def nameLe (r s : Resource) : Bool := lexLe r.name.data s.name.data

/-- Embedding of `get_sorted_resources`: copies the list and sorts the copy by name.
Python `list.sort` is a stable sort; it is modelled by the stable
`List.mergeSort` under `nameLe`. -/
def get_sorted_resources (resources : List Resource) : List Resource :=
  resources.mergeSort nameLe

/-! ## Metadata loading (`get_module`, `get_module_data`) -/

/-- The mapping found under the `module` key of the descriptor, as an
association list (YAML mappings have no duplicate keys; lookups take the
first occurrence). -/
abbrev ModuleMap := List (String × String)

/-- A parsed descriptor document: a top-level mapping from keys to
sub-mappings (the fragment of YAML the loader actually touches). -/
abbrev YamlDoc := List (String × ModuleMap)

def lookupYaml (doc : YamlDoc) (k : String) : Option ModuleMap :=
  (doc.find? (fun kv => kv.1 == k)).map (fun kv => kv.2)

def lookupKey (m : ModuleMap) (k : String) : Option String :=
  (m.find? (fun kv => kv.1 == k)).map (fun kv => kv.2)

/-- Model of `Module(**data['module'])`: keyword construction of the dataclass.
Both `description` and `name` are required (no defaults), so CPython
raises a `TypeError` when either keyword is absent. -/
def moduleFromKwargs (m : ModuleMap) : Except PyError Module :=
  match lookupKey m "description", lookupKey m "name" with
  | some d, some n => .ok { description := d, name := n, first_resource := none }
  | _, _ => .error (.typeError moduleInitMsg)

/-- Embedding of `get_module_data`: check the top-level `module` key is present, check
every key under it lies in `('name', 'description')`, then build the
`Module` from the mapping's entries as keyword arguments. -/
def get_module_data (doc : YamlDoc) : Except PyError Module :=
  match lookupYaml doc "module" with
  | none => .error (.keyError missingModuleMsg)
  | some m =>
    if m.all (fun kv => kv.1 == "name" || kv.1 == "description")
    then moduleFromKwargs m
    else .error (.keyError invalidKeysMsg)

/-- A file under the metadata directory, as seen by `module.glob('**/*')`:
whether it is a regular file, its suffix, and (for descriptor candidates)
its parsed content. -/
structure ConfFile : Type where
  is_file : Bool
  suffix : String
  doc : YamlDoc

/-- The filter of `get_module`: regular files with suffix `.yml` or
`.yaml`. -/
def isConf (f : ConfFile) : Bool :=
  f.is_file && (f.suffix == ".yml" || f.suffix == ".yaml")

/-- Embedding of `get_module`: collect descriptor candidates under the directory, fail
when there are fewer or more than one, parse the single one. -/
def get_module (files : List ConfFile) : Except PyError Module :=
  match files.filter isConf with
  | [] => .error (.fileNotFoundError noConfMsg)
  | [f] => get_module_data f.doc
  | _ => .error (.fileNotFoundError multiConfMsg)

/-! ## Persistence (`record_resource`, `record_resources`) -/

/-- A row of the `resource` table: the generated `Id` plus the three
inserted columns `ModuleId`, `Content`, `NextResourceId`. -/
structure ResourceRow : Type where
  id : Nat
  moduleId : Nat
  content : String
  nextResourceId : Option Nat
deriving DecidableEq, Repr

/-- The storage state: the rows inserted so far, in insertion order, and
the next value of the generated-id sequence. -/
structure Database : Type where
  rows : List ResourceRow
  nextId : Nat
deriving DecidableEq, Repr

/-- Embedding of `record_resource`: INSERT one row, RETURNING the generated id. -/
def record_resource (resource : Resource) (module_id : Nat)
    (next_resource_id : Option Nat) (db : Database) : Nat × Database :=
  let resource_id := db.nextId
  (resource_id,
   { rows := db.rows ++ [⟨resource_id, module_id, resource.content, next_resource_id⟩],
     nextId := db.nextId + 1 })

/-- The loop of `record_resources`: thread the id returned by each
insertion into the next call as its `next_resource_id`. -/
def record_resources_loop (resources : List Resource) (module_id : Nat)
    (next_resource_id : Option Nat) (db : Database) : Database :=
  match resources with
  | [] => db
  | r :: rs =>
    let p := record_resource r module_id next_resource_id db
    record_resources_loop rs module_id (some p.1) p.2

/-- Embedding of `record_resources`: reverse the list (`resources[::-1]`) and insert
starting from `next_resource_id = None`. -/
def record_resources (resources : List Resource) (module_id : Nat)
    (db : Database) : Database :=
  record_resources_loop resources.reverse module_id none db

/-- The rows appended by the insertion loop when run on `rs` with initial
successor `next` and id counter `id0`: each row takes the freshly
generated id, and the id just generated becomes the successor recorded by
the following insertion. -/
def chainRows (rs : List Resource) (mid : Nat) (next : Option Nat)
    (id0 : Nat) : List ResourceRow :=
  match rs with
  | [] => []
  | r :: rest => ⟨id0, mid, r.content, next⟩ :: chainRows rest mid (some id0) (id0 + 1)

/-- Follow the successor pointers through a set of rows: look the current
id up, emit the row, continue with its `nextResourceId`. The `fuel`
argument bounds the walk so it is total; a walk that returns fewer rows
than its fuel terminated by reaching a null successor. -/
def followChain (rows : List ResourceRow) : Option Nat → Nat → List ResourceRow
  | none, _ => []
  | some _, 0 => []
  | some i, fuel + 1 =>
    match rows.find? (fun row => row.id == i) with
    | none => []
    | some row => row :: followChain rows row.nextResourceId fuel

/-! ## Properties of the lexicographic comparison -/

theorem lexLe_refl : ∀ as : List Char, lexLe as as = true := by
  intro as
  induction as with
  | nil => rfl
  | cons a as ih => simp [lexLe, ih]

theorem lexLe_total : ∀ as bs : List Char, (lexLe as bs || lexLe bs as) = true := by
  intro as
  induction as with
  | nil => intro bs; simp [lexLe]
  | cons a as ih =>
    intro bs
    cases bs with
    | nil => simp [lexLe]
    | cons b bs =>
      simp only [lexLe]
      rcases Nat.lt_trichotomy a.toNat b.toNat with h | h | h
      · simp [h]
      · simp [h, Nat.lt_irrefl, ih bs]
      · simp [h, Nat.lt_asymm h]

theorem lexLe_trans : ∀ as bs cs : List Char,
    lexLe as bs = true → lexLe bs cs = true → lexLe as cs = true := by
  intro as
  induction as with
  | nil => intro bs cs _ _; simp [lexLe]
  | cons a as ih =>
    intro bs cs h1 h2
    cases bs with
    | nil => simp [lexLe] at h1
    | cons b bs =>
      cases cs with
      | nil => simp [lexLe] at h2
      | cons c cs =>
        simp only [lexLe] at h1 h2 ⊢
        by_cases hab : a.toNat < b.toNat
        · by_cases hbc : b.toNat < c.toNat
          · simp [show a.toNat < c.toNat by omega]
          · by_cases hcb : c.toNat < b.toNat
            · simp [hbc, hcb] at h2
            · simp [show a.toNat < c.toNat by omega]
        · by_cases hba : b.toNat < a.toNat
          · simp [hab, hba] at h1
          · by_cases hbc : b.toNat < c.toNat
            · simp [show a.toNat < c.toNat by omega]
            · by_cases hcb : c.toNat < b.toNat
              · simp [hbc, hcb] at h2
              · simp [hab, hba] at h1
                simp [hbc, hcb] at h2
                simp [show ¬ a.toNat < c.toNat by omega, show ¬ c.toNat < a.toNat by omega]
                exact ih bs cs h1 h2

theorem nameLe_refl (a : Resource) : nameLe a a = true := lexLe_refl _

theorem nameLe_total : ∀ a b : Resource, (nameLe a b || nameLe b a) = true :=
  fun a b => lexLe_total a.name.data b.name.data

theorem nameLe_trans : ∀ a b c : Resource,
    nameLe a b = true → nameLe b c = true → nameLe a c = true :=
  fun a b c => lexLe_trans a.name.data b.name.data c.name.data

/-- The filter of a list by a predicate `p` is pairwise related whenever the
relation holds between any two elements satisfying `p`. -/
theorem pairwise_filter_of_prop {α : Type} {p : α → Bool} {R : α → α → Prop}
    (h : ∀ a b, p a = true → p b = true → R a b) :
    ∀ l : List α, (l.filter p).Pairwise R := by
  intro l
  induction l with
  | nil => simp
  | cons x l ih =>
    by_cases hx : p x
    · rw [List.filter_cons_of_pos hx, List.pairwise_cons]
      exact ⟨fun b hb => h x b hx (List.of_mem_filter hb), ih⟩
    · rw [List.filter_cons_of_neg (by simpa using hx)]
      exact ih

/-- Every element of a nonempty pairwise-related list is related to the
list's last element, for a reflexive relation. -/
theorem pairwise_rel_getLast {α : Type} {R : α → α → Prop} (hrefl : ∀ a, R a a) :
    ∀ (l : List α) (h : l ≠ []), l.Pairwise R → ∀ a ∈ l, R a (l.getLast h) := by
  intro l
  induction l with
  | nil => intro h; cases h rfl
  | cons x l ih =>
    intro h hp a ha
    cases l with
    | nil =>
      rw [List.mem_singleton] at ha
      subst ha
      exact hrefl a
    | cons y l' =>
      rw [List.getLast_cons (by simp)]
      rcases List.mem_cons.mp ha with rfl | ha'
      · exact (List.pairwise_cons.mp hp).1 _ (List.getLast_mem _)
      · exact ih (by simp) (List.pairwise_cons.mp hp).2 a ha'

/-- C2: for every list of fragments, `get_sorted_resources` returns the
fragments ordered by ascending codepoint-wise lexicographic comparison of
their names, and applying it to its own output yields an identical list
(idempotence). -/
theorem get_sorted_resources_sorted_and_idempotent (xs : List Resource) :
    (get_sorted_resources xs).Pairwise (fun a b => nameLe a b = true)
    ∧ get_sorted_resources (get_sorted_resources xs) = get_sorted_resources xs := by
  have hs : (xs.mergeSort nameLe).Pairwise (fun a b => nameLe a b = true) := by
    simpa using List.sorted_mergeSort nameLe_trans nameLe_total xs
  exact ⟨hs, List.mergeSort_of_sorted (by simpa using hs)⟩

/-- C9: `get_sorted_resources` is pure with respect to its input — the
returned list is a permutation of the input (so every fragment value, its
content and its name, is preserved unchanged), and for each name the
fragments carrying it appear in the output in their input order
(stability under duplicate names). -/
theorem get_sorted_resources_perm_and_stable (xs : List Resource) :
    (get_sorted_resources xs).Perm xs
    ∧ ∀ n : String, (get_sorted_resources xs).filter (fun r => r.name == n)
        = xs.filter (fun r => r.name == n) := by
  refine ⟨List.mergeSort_perm xs nameLe, fun n => ?_⟩
  have hpair : (xs.filter (fun r => r.name == n)).Pairwise (fun a b => nameLe a b = true) :=
    pairwise_filter_of_prop
      (fun a b ha hb => by
        have ha' : a.name = n := by simpa using ha
        have hb' : b.name = n := by simpa using hb
        unfold nameLe
        rw [ha', hb']
        exact lexLe_refl _)
      xs
  have hsub : List.Sublist (xs.filter (fun r => r.name == n)) (xs.mergeSort nameLe) :=
    List.sublist_mergeSort nameLe_trans nameLe_total (by simpa using hpair)
      (List.filter_sublist xs)
  have hsub2 : List.Sublist (xs.filter (fun r => r.name == n))
      ((xs.mergeSort nameLe).filter (fun r => r.name == n)) := by
    have hff := List.Sublist.filter (fun r => r.name == n) hsub
    rwa [List.filter_eq_self.mpr (fun a ha => (List.mem_filter.mp ha).2)] at hff
  have hlen : ((xs.mergeSort nameLe).filter (fun r => r.name == n)).length
      = (xs.filter (fun r => r.name == n)).length :=
    ((List.mergeSort_perm xs nameLe).filter (fun r => r.name == n)).length_eq
  exact (hsub2.eq_of_length hlen.symm).symm

/-! ## Metadata loader claims -/

/-- C3: `get_module` fails with the not-found error when zero descriptor
files (extension `.yml` or `.yaml`) exist under the directory, fails with a
distinct error value (the ambiguity message) when more than one exists, and
proceeds to parsing exactly when one exists. Both failures are
`FileNotFoundError` values in the source; they are distinguished by their
messages. -/
theorem get_module_cases (files : List ConfFile) :
    ((files.filter isConf).length = 0 →
        get_module files = .error (.fileNotFoundError noConfMsg))
    ∧ ((files.filter isConf).length > 1 →
        get_module files = .error (.fileNotFoundError multiConfMsg)
          ∧ PyError.fileNotFoundError multiConfMsg ≠ PyError.fileNotFoundError noConfMsg)
    ∧ (∀ f, files.filter isConf = [f] → get_module files = get_module_data f.doc) := by
  have hne : PyError.fileNotFoundError multiConfMsg ≠ PyError.fileNotFoundError noConfMsg := by
    intro hcon
    have : multiConfMsg = noConfMsg := by injection hcon
    simp [multiConfMsg, noConfMsg] at this
  cases hcf : files.filter isConf with
  | nil =>
    refine ⟨fun _ => by simp [get_module, hcf], fun hlen => ?_, fun f hf => ?_⟩
    · simp at hlen
    · simp at hf
  | cons f rest =>
    cases rest with
    | nil =>
      refine ⟨fun hlen => ?_, fun hlen => ?_, fun g hg => ?_⟩
      · simp at hlen
      · simp at hlen
      · have : g = f := by injection hg with h1 _; exact h1.symm
        subst this
        simp [get_module, hcf]
    | cons g rest2 =>
      refine ⟨fun hlen => ?_, fun _ => ⟨by simp [get_module, hcf], hne⟩, fun h hh => ?_⟩
      · simp at hlen
      · simp at hh

/-- C3 witness: zero, two and one descriptor files, concretely. -/
theorem get_module_cases_witness :
    get_module [] = .error (.fileNotFoundError noConfMsg)
    ∧ get_module [⟨true, ".yaml", []⟩, ⟨true, ".yml", []⟩]
        = .error (.fileNotFoundError multiConfMsg)
    ∧ get_module [⟨true, ".yaml", [("module", [("name", "A"), ("description", "B")])]⟩]
        = get_module_data [("module", [("name", "A"), ("description", "B")])] := by
  refine ⟨(get_module_cases []).1 rfl, ?_, ?_⟩
  · exact ((get_module_cases [⟨true, ".yaml", []⟩, ⟨true, ".yml", []⟩]).2.1 (by simp [isConf])).1
  · exact (get_module_cases
      [⟨true, ".yaml", [("module", [("name", "A"), ("description", "B")])]⟩]).2.2
      ⟨true, ".yaml", [("module", [("name", "A"), ("description", "B")])]⟩ (by simp [isConf])

/-- C4: a descriptor document with no top-level `module` key makes
`get_module_data` fail with the missing-field `KeyError`, and no `Module`
is constructed. -/
theorem get_module_data_missing_module (doc : YamlDoc)
    (h : ∀ kv ∈ doc, kv.1 ≠ "module") :
    get_module_data doc = .error (.keyError missingModuleMsg)
    ∧ ∀ m : Module, get_module_data doc ≠ .ok m := by
  have hf : doc.find? (fun kv => kv.1 == "module") = none :=
    List.find?_eq_none.mpr (fun kv hkv => by simpa using h kv hkv)
  refine ⟨by simp [get_module_data, lookupYaml, hf], fun m hm => ?_⟩
  simp [get_module_data, lookupYaml, hf] at hm

/-- C4 witness: a concrete document without the `module` key. -/
theorem get_module_data_missing_module_witness :
    get_module_data [("other", [])] = .error (.keyError missingModuleMsg) :=
  (get_module_data_missing_module [("other", [])] (by simp)).1

/-- C5: when the `module` key is present with mapping `m`,
`get_module_data` fails with the invalid-field `KeyError` iff some key of
`m` lies outside the allowed set, and a mapping containing only `name`
passes the validation step (the run continues into `Module`
construction). -/
theorem get_module_data_invalid_key_iff (doc : YamlDoc) (m : ModuleMap)
    (h : lookupYaml doc "module" = some m) :
    (get_module_data doc = .error (.keyError invalidKeysMsg)
        ↔ ∃ kv ∈ m, kv.1 ≠ "name" ∧ kv.1 ≠ "description")
    ∧ (∀ v : String, m = [("name", v)] → get_module_data doc = moduleFromKwargs m) := by
  constructor
  · by_cases hall : m.all (fun kv => kv.1 == "name" || kv.1 == "description") = true
    · constructor
      · intro hres
        exfalso
        rw [show get_module_data doc = moduleFromKwargs m by
              simp [get_module_data, h, hall]] at hres
        unfold moduleFromKwargs at hres
        cases hd : lookupKey m "description" <;> cases hn : lookupKey m "name" <;>
          rw [hd, hn] at hres <;>
          simp [moduleInitMsg, invalidKeysMsg] at hres
      · rintro ⟨kv, hkv, h1, h2⟩
        have := List.all_eq_true.mp hall kv hkv
        simp [h1, h2] at this
    · constructor
      · intro _
        have hex : ∃ kv ∈ m, ¬ ((kv.1 == "name" || kv.1 == "description") = true) := by
          by_contra hc
          push_neg at hc
          exact hall (List.all_eq_true.mpr (fun kv hkv => by
            have := hc kv hkv
            simpa using this))
        rcases hex with ⟨kv, hkv, hbad⟩
        exact ⟨kv, hkv, by simpa using hbad⟩
      · intro _
        simp [get_module_data, h, hall]
  · rintro v rfl
    simp [get_module_data, h]

/-- C5 witness: a disallowed key fails, a `name`-only mapping passes
validation. -/
theorem get_module_data_invalid_key_witness :
    get_module_data [("module", [("name", "A"), ("junk", "x")])]
        = .error (.keyError invalidKeysMsg)
    ∧ get_module_data [("module", [("name", "A")])] = moduleFromKwargs [("name", "A")] := by
  constructor
  · exact (get_module_data_invalid_key_iff [("module", [("name", "A"), ("junk", "x")])]
      [("name", "A"), ("junk", "x")] (by simp [lookupYaml])).1.mpr
      ⟨("junk", "x"), by simp, by simp, by simp⟩
  · exact (get_module_data_invalid_key_iff [("module", [("name", "A")])]
      [("name", "A")] (by simp [lookupYaml])).2 "A" rfl

/-- C6: a descriptor whose `module` mapping holds exactly `name: a` and
`description: b` (in either order) yields `.ok` with that name and
description and `first_resource` left at its `None` default. -/
theorem get_module_data_ok (doc : YamlDoc) (m : ModuleMap) (a b : String)
    (h : lookupYaml doc "module" = some m)
    (hm : m = [("name", a), ("description", b)] ∨ m = [("description", b), ("name", a)]) :
    get_module_data doc
      = .ok { description := b, name := a, first_resource := none } := by
  rcases hm with hm | hm <;> subst hm <;>
    simp [get_module_data, h, moduleFromKwargs, lookupKey]

/-- C6 witness: the descriptor of the spec's example. -/
theorem get_module_data_ok_witness :
    get_module_data [("module", [("name", "A"), ("description", "B")])]
      = .ok { description := "B", name := "A", first_resource := none } :=
  get_module_data_ok [("module", [("name", "A"), ("description", "B")])]
    [("name", "A"), ("description", "B")] "A" "B" (by simp [lookupYaml]) (Or.inl rfl)

/-- C10: a present `module` mapping whose keys all lie in the allowed set
but which lacks `name` or `description` (the empty mapping included)
passes the allowed-keys validation and then fails at `Module`
construction with a `TypeError` — an error that is neither the
missing-field nor the invalid-field `KeyError`. -/
theorem get_module_data_missing_required (doc : YamlDoc) (m : ModuleMap)
    (h : lookupYaml doc "module" = some m)
    (hallowed : ∀ kv ∈ m, kv.1 = "name" ∨ kv.1 = "description")
    (hmissing : lookupKey m "name" = none ∨ lookupKey m "description" = none) :
    get_module_data doc = moduleFromKwargs m
    ∧ get_module_data doc = .error (.typeError moduleInitMsg)
    ∧ (∀ msg, get_module_data doc ≠ .error (.keyError msg)) := by
  have hall : m.all (fun kv => kv.1 == "name" || kv.1 == "description") = true :=
    List.all_eq_true.mpr (fun kv hkv => by
      rcases hallowed kv hkv with h' | h' <;> simp [h'])
  have hres : get_module_data doc = moduleFromKwargs m := by
    simp [get_module_data, h, hall]
  have hkw : moduleFromKwargs m = .error (.typeError moduleInitMsg) := by
    unfold moduleFromKwargs
    rcases hmissing with hm | hm
    · cases hd : lookupKey m "description" <;> simp [hm, hd]
    · simp [hm]
  refine ⟨hres, hres.trans hkw, fun msg hcon => ?_⟩
  rw [hres, hkw] at hcon
  simp at hcon

/-- C10 witness: the empty `module` mapping. -/
theorem get_module_data_missing_required_witness :
    get_module_data [("module", [])] = .error (.typeError moduleInitMsg) :=
  (get_module_data_missing_required [("module", [])] [] (by simp [lookupYaml])
    (by simp) (Or.inl rfl)).2.1

/-! ## Fragment discovery claims -/

/-- C8 counterexample: `get_resources` uses the recursive glob
`'**/*.html'`, so a content file located in a subdirectory of the module
directory IS materialized as a fragment — the claim's non-recursive
reading predicts the empty output here. -/
theorem get_resources_includes_subdirectories :
    get_resources [⟨["sub", "x.html"], "hi"⟩] = [Resource.mk "hi" "x.html" none]
    ∧ get_resources [⟨["sub", "x.html"], "hi"⟩] ≠ [] := by
  constructor
  · rfl
  · intro hcon
    simp [get_resources, matchesHtml, fileName] at hcon

/-- C8 amended: `get_resources` produces one fragment per `.html` file
found anywhere under the directory (recursively — files in subdirectories
are included); each fragment's content is the file's exact UTF-8 text and
its name is the file's base name including the extension. -/
theorem get_resources_spec (files : List FsFile) :
    (get_resources files).length = (files.filter matchesHtml).length
    ∧ (∀ f ∈ files, matchesHtml f = true →
        Resource.mk f.text (fileName f) none ∈ get_resources files)
    ∧ (∀ r ∈ get_resources files, ∃ f ∈ files, matchesHtml f = true
        ∧ r = Resource.mk f.text (fileName f) none) := by
  refine ⟨by simp [get_resources], fun f hf hm => ?_, fun r hr => ?_⟩
  · exact List.mem_map.mpr ⟨f, List.mem_filter.mpr ⟨hf, hm⟩, rfl⟩
  · rcases List.mem_map.mp hr with ⟨f, hf, rfl⟩
    exact ⟨f, (List.mem_filter.mp hf).1, (List.mem_filter.mp hf).2, rfl⟩

/-- C8 amended witness: the subdirectory file of the counterexample is
produced with its exact text and base name. -/
theorem get_resources_spec_witness :
    Resource.mk "hi" "x.html" none ∈ get_resources [⟨["sub", "x.html"], "hi"⟩] :=
  (get_resources_spec [⟨["sub", "x.html"], "hi"⟩]).2.1 ⟨["sub", "x.html"], "hi"⟩
    (by simp) (by rfl)

/-! ## Persistence claims -/

/-- C7: `record_resources` on the empty fragment list returns the storage
state unchanged — in this model every insert appends exactly one row, so
an unchanged row list means zero insert calls were performed. -/
theorem record_resources_empty (module_id : Nat) (db : Database) :
    record_resources [] module_id db = db
    ∧ (record_resources [] module_id db).rows = db.rows :=
  ⟨rfl, rfl⟩

/-! ## The reverse-insertion chain -/

/-- Closed form of the insertion loop: it appends `chainRows` to the
stored rows and advances the id counter by the number of insertions. -/
theorem record_resources_loop_eq (mid : Nat) :
    ∀ (rs : List Resource) (next : Option Nat) (db : Database),
      record_resources_loop rs mid next db
        = { rows := db.rows ++ chainRows rs mid next db.nextId,
            nextId := db.nextId + rs.length } := by
  intro rs
  induction rs with
  | nil => intro next db; simp [record_resources_loop, chainRows]
  | cons r rest ih =>
    intro next db
    rw [record_resources_loop]
    rw [ih]
    simp [record_resource, chainRows, Database.mk.injEq]
    omega

theorem chainRows_length : ∀ (rs : List Resource) (mid : Nat) (next : Option Nat) (id0 : Nat),
    (chainRows rs mid next id0).length = rs.length := by
  intro rs
  induction rs with
  | nil => intro mid next id0; rfl
  | cons r rest ih => intro mid next id0; simp [chainRows, ih]

/-- The value `nextIdOf k id0 next` is the successor recorded by the `k`-th
insertion of the loop: the initial successor for the first one, the
previously generated id after that. -/
def nextIdOf (k id0 : Nat) (next : Option Nat) : Option Nat :=
  if k = 0 then next else some (id0 + k - 1)

/-- Shifting the insertion index by one matches shifting the id base: the
successor recorded by insertion `k` of the tail loop (whose base id is
`id0 + 1` and whose initial successor is the freshly generated `id0`) is
the successor recorded by insertion `k + 1` of the whole loop. -/
theorem nextIdOf_shift (k id0 : Nat) (next : Option Nat) :
    nextIdOf k (id0 + 1) (some id0) = nextIdOf (k + 1) id0 next := by
  rcases Nat.eq_zero_or_pos k with hk | hk
  · subst hk
    simp [nextIdOf]
  · rw [nextIdOf, nextIdOf, if_neg (by omega), if_neg (by omega)]
    congr 1
    omega

/-- The row at position `k` of the appended chain: it carries the `k`-th
generated id, the content of the `k`-th processed fragment, and the id
generated just before it as its successor (the initial successor for the
first row). -/
theorem chainRows_getElem? :
    ∀ (rs : List Resource) (mid : Nat) (next : Option Nat) (id0 k : Nat) (h : k < rs.length),
      (chainRows rs mid next id0)[k]?
        = some ⟨id0 + k, mid, (rs.get ⟨k, h⟩).content, nextIdOf k id0 next⟩ := by
  intro rs
  induction rs with
  | nil => intro mid next id0 k h; simp at h
  | cons r rest ih =>
    intro mid next id0 k h
    cases k with
    | zero => simp [chainRows, nextIdOf]
    | succ k' =>
      have h' : k' < rest.length := by simpa using h
      rw [chainRows, List.getElem?_cons_succ, ih mid (some id0) (id0 + 1) k' h']
      rw [nextIdOf_shift k' id0 next]
      rw [show ((r :: rest).get ⟨k' + 1, h⟩) = rest.get ⟨k', h'⟩ from rfl]
      rw [show id0 + 1 + k' = id0 + (k' + 1) from by omega]

/-- Looking the `k`-th generated id up among the appended rows finds
exactly the `k`-th row. -/
theorem chainRows_find? :
    ∀ (rs : List Resource) (mid : Nat) (next : Option Nat) (id0 k : Nat) (h : k < rs.length),
      (chainRows rs mid next id0).find? (fun row => row.id == id0 + k)
        = some ⟨id0 + k, mid, (rs.get ⟨k, h⟩).content, nextIdOf k id0 next⟩ := by
  intro rs
  induction rs with
  | nil => intro mid next id0 k h; simp at h
  | cons r rest ih =>
    intro mid next id0 k h
    cases k with
    | zero =>
      rw [chainRows]
      rw [List.find?_cons_of_pos _ (by simp)]
      simp [nextIdOf]
    | succ k' =>
      have h' : k' < rest.length := by simpa using h
      rw [chainRows]
      rw [List.find?_cons_of_neg _ (by simp)]
      have harith : id0 + (k' + 1) = (id0 + 1) + k' := by omega
      rw [harith, ih mid (some id0) (id0 + 1) k' h']
      rw [← harith, nextIdOf_shift k' id0 next]
      rw [show ((r :: rest).get ⟨k' + 1, h⟩) = rest.get ⟨k', h'⟩ from rfl]

theorem followChain_none (rows : List ResourceRow) (fuel : Nat) :
    followChain rows none fuel = [] := by
  cases fuel <;> rfl

/-- One step of the walk, when the id is found: emit the row, continue
from its recorded successor. -/
theorem followChain_succ_found (rows : List ResourceRow) (i fuel : Nat)
    (a b : Nat) (c : String) (nxt : Option Nat)
    (h : rows.find? (fun row => row.id == i) = some ⟨a, b, c, nxt⟩) :
    followChain rows (some i) (fuel + 1)
      = ⟨a, b, c, nxt⟩ :: followChain rows nxt fuel := by
  simp [followChain, h]

/-- Walking the successor pointers down from the `k`-th generated id
visits the first `k + 1` rows in reverse insertion order and then stops at
the null successor, with one unit of fuel to spare. -/
theorem followChain_chainRows (rs : List Resource) (mid id0 : Nat) :
    ∀ k, k < rs.length →
      followChain (chainRows rs mid none id0) (some (id0 + k)) (k + 2)
        = ((chainRows rs mid none id0).take (k + 1)).reverse := by
  intro k
  induction k with
  | zero =>
    intro hk
    have hf := chainRows_find? rs mid none id0 0 hk
    have hg := chainRows_getElem? rs mid none id0 0 hk
    rw [show (nextIdOf 0 id0 none) = none from rfl] at hf hg
    rw [followChain_succ_found _ _ _ _ _ _ _ hf, followChain_none]
    conv_rhs => rw [List.take_succ, List.take_zero, hg]
    simp
  | succ k' ih =>
    intro hk
    have hk' : k' < rs.length := by omega
    have hf := chainRows_find? rs mid none id0 (k' + 1) hk
    have hg := chainRows_getElem? rs mid none id0 (k' + 1) hk
    have hnx : nextIdOf (k' + 1) id0 none = some (id0 + k') := by
      rw [nextIdOf, if_neg (Nat.succ_ne_zero k')]
      exact congrArg some (by omega)
    rw [hnx] at hf hg
    rw [followChain_succ_found _ _ _ _ _ _ _ hf]
    rw [ih hk']
    conv_rhs => rw [List.take_succ, hg]
    simp

theorem chainRows_filter_isNone_some :
    ∀ (rs : List Resource) (mid j id0 : Nat),
      (chainRows rs mid (some j) id0).filter (fun row => row.nextResourceId.isNone) = [] := by
  intro rs
  induction rs with
  | nil => intro mid j id0; rfl
  | cons r rest ih => intro mid j id0; simp [chainRows, ih]

theorem chainRows_map_id :
    ∀ (rs : List Resource) (mid : Nat) (next : Option Nat) (id0 : Nat),
      (chainRows rs mid next id0).map (fun row => row.id) = List.range' id0 rs.length := by
  intro rs
  induction rs with
  | nil => intro mid next id0; rfl
  | cons r rest ih => intro mid next id0; simp [chainRows, ih, List.range'_succ]

theorem chainRows_map_content :
    ∀ (rs : List Resource) (mid : Nat) (next : Option Nat) (id0 : Nat),
      (chainRows rs mid next id0).map (fun row => row.content) = rs.map Resource.content := by
  intro rs
  induction rs with
  | nil => intro mid next id0; rfl
  | cons r rest ih => intro mid next id0; simp [chainRows, ih]

/-- C1: `record_resources` on a non-empty name-sorted fragment list
processes the fragments in reverse order: the rows it appends are
`chainRows` of the reversed list, whose first row holds the alphabetically
last fragment with a null successor and in which each later insertion
records the previously returned id as its successor. The appended rows
contain exactly one row with no successor, their ids are pairwise
distinct, and following successor ids from the first fragment's row visits
all `N` rows exactly once — in the ascending name order of the input —
terminating at the null successor with fuel to spare. -/
theorem record_resources_chain (xs : List Resource) (mid : Nat) (db : Database)
    (newRows : List ResourceRow)
    (hne : xs ≠ [])
    (hsort : xs.Pairwise (fun a b => nameLe a b = true))
    (hNew : newRows = chainRows xs.reverse mid none db.nextId) :
    (record_resources xs mid db).rows = db.rows ++ newRows
    ∧ newRows.length = xs.length
    ∧ newRows.head? = xs.getLast?.map (fun r => ResourceRow.mk db.nextId mid r.content none)
    ∧ (∀ r ∈ xs, nameLe r (xs.getLast hne) = true)
    ∧ (newRows.filter (fun row => row.nextResourceId.isNone)).length = 1
    ∧ (newRows.map (fun row => row.id)).Nodup
    ∧ followChain newRows (some (db.nextId + (xs.length - 1))) (xs.length + 1)
        = newRows.reverse
    ∧ newRows.reverse.map (fun row => row.content) = xs.map Resource.content := by
  subst hNew
  have hpos : 0 < xs.length := List.length_pos.mpr hne
  obtain ⟨r, rest, hrev⟩ : ∃ r rest, xs.reverse = r :: rest := by
    cases hx : xs.reverse with
    | nil =>
      exact absurd (by simpa using congrArg List.reverse hx) hne
    | cons r rest => exact ⟨r, rest, rfl⟩
  refine ⟨?_, ?_, ?_, ?_, ?_, ?_, ?_, ?_⟩
  · simp [record_resources, record_resources_loop_eq]
  · simp [chainRows_length]
  · rw [hrev, chainRows, List.getLast?_eq_head?_reverse, hrev]
    simp
  · exact pairwise_rel_getLast (fun a => nameLe_refl a) xs hne hsort
  · rw [hrev, chainRows]
    rw [List.filter_cons_of_pos (by rfl)]
    rw [chainRows_filter_isNone_some]
    rfl
  · rw [chainRows_map_id]
    exact List.nodup_range' _ _
  · have hk : xs.length - 1 < xs.reverse.length := by simp; omega
    have hw := followChain_chainRows xs.reverse mid db.nextId (xs.length - 1) hk
    have hfuel : xs.length - 1 + 2 = xs.length + 1 := by omega
    rw [hfuel] at hw
    rw [hw]
    have htake : xs.length - 1 + 1 = (chainRows xs.reverse mid none db.nextId).length := by
      rw [chainRows_length]
      simp
      omega
    rw [htake, List.take_length]
  · rw [List.map_reverse, chainRows_map_content]
    simp

/-- C1 witness: two sorted fragments, an empty database with the id
sequence at 0; the walk from id 1 (the row of `a.html`) visits both rows
and terminates. -/
theorem record_resources_chain_witness :
    (record_resources [Resource.mk "1" "a.html" none, Resource.mk "2" "b.html" none] 7
        (Database.mk [] 0)).rows
      = [] ++ chainRows ([Resource.mk "1" "a.html" none,
          Resource.mk "2" "b.html" none]).reverse 7 none 0
    ∧ followChain (chainRows ([Resource.mk "1" "a.html" none,
          Resource.mk "2" "b.html" none]).reverse 7 none 0) (some (0 + (2 - 1))) (2 + 1)
      = (chainRows ([Resource.mk "1" "a.html" none,
          Resource.mk "2" "b.html" none]).reverse 7 none 0).reverse := by
  have hsort : ([Resource.mk "1" "a.html" none,
      Resource.mk "2" "b.html" none]).Pairwise (fun a b => nameLe a b = true) := by
    refine List.Pairwise.cons ?_ (List.Pairwise.cons (by simp) List.Pairwise.nil)
    intro b hb
    rw [List.mem_singleton] at hb
    subst hb
    decide
  have h := record_resources_chain
    [Resource.mk "1" "a.html" none, Resource.mk "2" "b.html" none] 7 (Database.mk [] 0)
    (chainRows ([Resource.mk "1" "a.html" none,
      Resource.mk "2" "b.html" none]).reverse 7 none 0)
    (List.cons_ne_nil _ _) hsort rfl
  exact ⟨h.1, h.2.2.2.2.2.2.1⟩

end Uploader
